import Mathlib

/-!
# libqhash: handle registry, id allocator, cursors and list-hash layer

A shallow embedding of `src/libqhash.c` and of the registry part of `src/qhash.c`.

* C `unsigned` values are natural numbers below `2 ^ 32`; arithmetic that can leave the
  range is reduced with `wrapU`.  `(unsigned) -1` is `UINT_MAX`.
* A pointer to a buffer together with its size is a list of bytes.  A buffer handed to a
  function is the whole object at the pointer: a copy of more bytes than it holds runs past
  its end, which is undefined behaviour and is modelled by `none`.
* The arrays `hash_dbs` and `meta` are indexed without a check in the sources; their
  bounds are not modelled.
* The storage engine (Berkeley DB) is not part of the repository.  It is modelled by a
  list of key/data pairs in cursor order, with the documented behaviour of `put`, `get`,
  `del` and of the cursor operations `DB_FIRST`, `DB_NEXT`, `DB_SET`, `DB_NEXT_DUP`.
  Engine calls are assumed not to fail with I/O errors.
* An `SLIST` is a Lean list whose head is the first element of the `SLIST`.
-/

namespace Qhash

/-! ## Machine integers and memory -/

/-- Largest value of the C type `unsigned`; it is also the value of `(unsigned) -1`. -/
def UINT_MAX : Nat := 4294967295

/-- Reduction of a natural number into the range of `unsigned`. -/
def wrapU (n : Nat) : Nat := n % 4294967296

/-- One byte of memory. -/
abbrev Byte := Fin 256

/-- The bytes found at a pointer, as many as the accompanying size says. -/
abbrev Bytes := List Byte

/-- C `memcpy(dst, src, n)`: the first `n` bytes of `dst` are replaced by those of `src`. -/
def memcpy (dst src : Bytes) (n : Nat) : Bytes := src.take n ++ dst.drop n

/-- C `memcmp(a, b, n)`, reduced to what the callers test: `0` exactly when the first `n`
bytes agree. -/
def memcmp (a b : Bytes) (n : Nat) : Int := if a.take n = b.take n then 0 else 1

/-- C `strlen`: the number of bytes before the first zero byte. -/
def strlen (s : Bytes) : Nat := (s.takeWhile (fun b => b ≠ 0)).length

/-- Native (little-endian) object representation of an `unsigned`. -/
def unsigned_bytes (n : Nat) : Bytes :=
  [Fin.ofNat (n % 256), Fin.ofNat (n / 256 % 256), Fin.ofNat (n / 65536 % 256),
   Fin.ofNat (n / 16777216 % 256)]

/-- Value of the `unsigned` object whose first four bytes are the first four bytes of
`bs` (little-endian); `0` when fewer than four bytes are given. -/
def unsigned_of_bytes (bs : Bytes) : Nat :=
  match bs with
  | b0 :: b1 :: b2 :: b3 :: _ => b0.val + 256 * b1.val + 65536 * b2.val + 16777216 * b3.val
  | _ => 0

/-! ## Id allocator (`struct idm`, libqhash.c) -/

/-- Allocator state `struct idm`: the free list (an `SLIST`, head first) and the counter
`last`. -/
structure idm where
  free : List Nat
  last : Nat
deriving DecidableEq, Repr

/-- `idml_push`: `SLIST_INSERT_HEAD`. -/
def idml_push (list : List Nat) (id : Nat) : List Nat := id :: list

/-- `idml_pop`: returns `(unsigned) -1` on an empty list, otherwise removes and returns the
head. -/
def idml_pop (list : List Nat) : Nat × List Nat :=
  match list with
  | [] => (UINT_MAX, [])
  | value :: rest => (value, rest)

/-- `idm_new`: pops the free list; when the popped value is `(unsigned) -1` it returns
`last++` instead. -/
def idm_new (m : idm) : Nat × idm :=
  let popped := idml_pop m.free
  if popped.1 = UINT_MAX then
    (m.last, { free := popped.2, last := wrapU (m.last + 1) })
  else
    (popped.1, { free := popped.2, last := m.last })

/-- Modelled from the spec: `idm_init` lives in `include/qhash.h`, which is not among the
sources; the allocator starts with `last = 0` and an empty free list. -/
def idm_init : idm := { free := [], last := 0 }

/-- Modelled from the spec: `idm_del` lives in `include/qhash.h`, which is not among the
sources; per the spec `del(id)` pushes `id` onto the free list. -/
def idm_del (m : idm) (id : Nat) : idm := { free := idml_push m.free id, last := m.last }

/-- One operation on an allocator. -/
inductive IdmOp where
  | new : IdmOp
  | del : Nat → IdmOp
deriving DecidableEq, Repr

/-- An allocator together with the ids that are live (issued and not yet freed). -/
structure IdmTrace where
  m : idm
  live : List Nat
deriving DecidableEq, Repr

/-- Runs one operation; `del` of an id that is not live is rejected. -/
def idmStep (t : IdmTrace) : IdmOp → Option IdmTrace
  | IdmOp.new => some { m := (idm_new t.m).2, live := (idm_new t.m).1 :: t.live }
  | IdmOp.del id =>
    if id ∈ t.live then some { m := idm_del t.m id, live := t.live.erase id } else none

/-- The further condition on a run: `idm_new` only while the counter cannot wrap, that is
while the free list is non-empty or `last` is below `UINT_MAX`. -/
def idmGuard (t : IdmTrace) : IdmOp → Bool
  | IdmOp.new => decide (t.m.free ≠ [] ∨ t.m.last < UINT_MAX)
  | IdmOp.del _ => true

/-- Runs a sequence of operations from left to right; with `guarded` the condition of
`idmGuard` is required of every operation as well. -/
def idmRun (guarded : Bool) : List IdmOp → IdmTrace → Option IdmTrace
  | [], t => some t
  | op :: ops, t =>
    if guarded = true → idmGuard t op = true then
      match idmStep t op with
      | none => none
      | some t1 => idmRun guarded ops t1
    else none

/-- Invariant of an allocator run: the counter has not wrapped, live and free ids are below
it, no id is both live and free, and neither list has repeats. -/
def IdmInv (t : IdmTrace) : Prop :=
  t.m.last ≤ UINT_MAX ∧ (∀ x ∈ t.live, x < t.m.last) ∧ (∀ x ∈ t.m.free, x < t.m.last) ∧
  (∀ x ∈ t.live, x ∉ t.m.free) ∧ t.live.Nodup ∧ t.m.free.Nodup

/-! ## Storage engine model (Berkeley DB, external) -/

/-- A `DBT`: the `size` bytes found at `data`.  A zeroed `DBT` is the empty list. -/
abbrev DBT := Bytes

/-- The `DBT` a function sets up from a pointer and a `size_t` length: the field `size` has
32 bits, so the length is reduced modulo `2 ^ 32` and the engine sees that many bytes. -/
def DBT_of (p : Bytes) : DBT := p.take (wrapU p.length)

/-- The entries of a table, in the order in which an engine cursor visits them.  The
duplicates of a key are the entries carrying that key, in this order. -/
abbrev Entries := List (Bytes × Bytes)

/-- Engine status `DB_NOTFOUND` (the value of db.h in release 5.3; only its being non-zero
matters). -/
def DB_NOTFOUND : Int := -30988

/-- C `EINVAL`, returned by the engine for a cursor operation on an unpositioned cursor. -/
def EINVAL : Int := 22

/-- An open engine table handle: whether `DB_DUP` was set on it, its entries, and whether
the handle has allocated the memory in which `DB->get` returns data (`rdata`).  The engine
allocates that memory when `DB->get` first returns a non-empty datum through the handle. -/
structure DB where
  dup : Bool
  entries : Entries
  rdata : Bool
deriving DecidableEq, Repr

/-- Engine `put` on a table without duplicates: the data of the first entry under `key`
is replaced; a key that is absent is added. -/
def DB_replace (key data : DBT) : Entries → Entries
  | [] => [(key, data)]
  | e :: es => if e.1 = key then (key, data) :: es else e :: DB_replace key data es

/-- Engine `DB->put` with flags `0`: with `DB_DUP` the pair is added after the existing
duplicates of its key (here: at the end of the list), without `DB_DUP` it replaces what is
stored under the key. -/
def DB_put (db : DB) (key data : DBT) : Int × DB :=
  if db.dup then
    (0, { dup := db.dup, entries := db.entries ++ [(key, data)], rdata := db.rdata })
  else (0, { dup := db.dup, entries := DB_replace key data db.entries, rdata := db.rdata })

/-- Engine `DB->get` with flags `0` and a zeroed data `DBT`: the status, the data pointer
with the bytes it points at (`none` is a `NULL` pointer), and the handle afterwards.  The
datum of the first entry under `key` is returned in memory owned by the handle.  A
zero-length datum needs no memory: while the handle has allocated none, the pointer of a
zero-length datum stays `NULL` although the status is `0`. -/
def DB_get (db : DB) (key : DBT) : Int × Option DBT × DB :=
  match db.entries.find? (fun e => e.1 = key) with
  | none => (DB_NOTFOUND, none, db)
  | some e =>
    (0, if e.2 = [] ∧ db.rdata = false then none else some e.2,
     { dup := db.dup, entries := db.entries, rdata := db.rdata || decide (e.2 ≠ []) })

/-- Engine `DB->del`: removes every entry under `key`; `DB_NOTFOUND` when there is none. -/
def DB_del (db : DB) (key : DBT) : Int × DB :=
  if db.entries.any (fun e => e.1 = key) then
    (0, { dup := db.dup, entries := db.entries.filter (fun e => e.1 ≠ key),
          rdata := db.rdata })
  else (DB_NOTFOUND, db)

/-- An engine cursor `DBC`: the index of the entry it is positioned at, if any. -/
structure DBC where
  pos : Option Nat
deriving DecidableEq, Repr

/-- The cursor operations used by the library. -/
inductive c_flag where
  | DB_FIRST
  | DB_NEXT
  | DB_NEXT_DUP
  | DB_SET
deriving DecidableEq, Repr

/-- Index of the first entry satisfying `p`. -/
def firstIdx (p : Bytes × Bytes → Bool) : Entries → Option Nat
  | [] => none
  | e :: es => if p e then some 0 else (firstIdx p es).map (fun i => i + 1)

/-- Result of a cursor `get`: status, cursor, key `DBT`, data `DBT`. -/
structure c_get_result where
  ret : Int
  cursor : DBC
  key : DBT
  data : DBT
deriving DecidableEq, Repr

/-- Moves the cursor to entry `i` and returns it, or reports `DB_NOTFOUND` leaving
everything as it was. -/
def c_goto (es : Entries) (c : DBC) (key data : DBT) (i : Option Nat) : c_get_result :=
  match i with
  | none => { ret := DB_NOTFOUND, cursor := c, key := key, data := data }
  | some j =>
    match es[j]? with
    | none => { ret := DB_NOTFOUND, cursor := c, key := key, data := data }
    | some e => { ret := 0, cursor := { pos := some j }, key := e.1, data := e.2 }

/-- Engine `DBC->get`.  `DB_FIRST`: the first entry.  `DB_NEXT`: the entry after the
current one (the first entry on an unpositioned cursor).  `DB_SET`: the first entry under
`key`.  `DB_NEXT_DUP`: the next duplicate of the current key, that is the next later entry
carrying the key of the current entry (the model does not ask duplicates to be adjacent). -/
def c_get (es : Entries) (c : DBC) (key data : DBT) : c_flag → c_get_result
  | c_flag.DB_FIRST => c_goto es c key data (some 0)
  | c_flag.DB_NEXT =>
    match c.pos with
    | none => c_goto es c key data (some 0)
    | some i => c_goto es c key data (some (i + 1))
  | c_flag.DB_SET => c_goto es c key data (firstIdx (fun e => e.1 = key) es)
  | c_flag.DB_NEXT_DUP =>
    match c.pos with
    | none => { ret := EINVAL, cursor := c, key := key, data := data }
    | some i =>
      match es[i]? with
      | none => { ret := DB_NOTFOUND, cursor := c, key := key, data := data }
      | some cur =>
        c_goto es c key data
          ((firstIdx (fun e => e.1 = cur.1) (es.drop (i + 1))).map (fun j => j + (i + 1)))

/-- Engine `DBC->del`: deletes the entry the cursor is positioned at. -/
def c_del (es : Entries) (c : DBC) : Int × Entries :=
  match c.pos with
  | none => (EINVAL, es)
  | some i => (0, es.eraseIdx i)

/-! ## libqhash.c: tables -/

/-- Per-handle record `struct meta` (the association callback is not modelled). -/
structure meta where
  len : Nat
  flags : Nat
  idm : idm
deriving DecidableEq, Repr

/-- The file-level state of libqhash.c: `hash_dbs`, `meta`, the handle allocator `idm` and
`hash_first`.  The reverse map `ids_db`, which only serves association callbacks, is not
modelled. -/
structure State where
  hash_dbs : Nat → DB
  meta : Nat → meta
  idm : idm
  hash_first : Bool

/-- Assignment to one array slot. -/
def setAt {α : Type} (a : Nat → α) (i : Nat) (v : α) : Nat → α :=
  fun j => if j = i then v else a j

/-- `_hash_put`: the status of the engine `put` and the table after it (the warning that is
logged on a non-zero status has no effect on the state). -/
def _hash_put (db : DB) (key_r value : Bytes) : Int × DB :=
  DB_put db (DBT_of key_r) (DBT_of value)

/-- `hash_put`. -/
def hash_put (st : State) (hd : Nat) (key_r value : Bytes) : Int × State :=
  let r := _hash_put (st.hash_dbs hd) key_r value
  (r.1, { hash_dbs := setAt st.hash_dbs hd r.2, meta := st.meta, idm := st.idm,
          hash_first := st.hash_first })

/-- `__hash_get`: the pointer it returns with the `size` bytes found there, and the handle
afterwards.  `none` is `NULL`: the value returned on `DB_NOTFOUND`, and also the data
pointer of the engine when that is `NULL`. -/
def __hash_get (db : DB) (key_r : Bytes) : Option Bytes × DB :=
  let r := DB_get db (DBT_of key_r)
  (if r.1 = DB_NOTFOUND then none else r.2.1, r.2.2)

/-- `_hash_get`: status, the content of the buffer `value_r` afterwards, and the handle.
`value_r` is the whole object the caller passes; a `memcpy` of more bytes than it holds
writes past its end, which is undefined behaviour: `none`. -/
def _hash_get (db : DB) (value_r key_r : Bytes) : Option (Int × Bytes × DB) :=
  match __hash_get db key_r with
  | (none, db1) => some (1, value_r, db1)
  | (some value, db1) =>
    if value.length ≤ value_r.length then some (0, memcpy value_r value value.length, db1)
    else none

/-- `hash_get`. -/
def hash_get (st : State) (hd : Nat) (value_r key_r : Bytes) : Option (Int × Bytes × State) :=
  match _hash_get (st.hash_dbs hd) value_r key_r with
  | none => none
  | some r =>
    some (r.1, r.2.1, { hash_dbs := setAt st.hash_dbs hd r.2.2, meta := st.meta,
                        idm := st.idm, hash_first := st.hash_first })

/-- `hash_exists`. -/
def hash_exists (st : State) (hd : Nat) (key_r : Bytes) : Int × State :=
  let r := __hash_get (st.hash_dbs hd) key_r
  (if r.1.isSome then 1 else 0,
   { hash_dbs := setAt st.hash_dbs hd r.2, meta := st.meta, idm := st.idm,
     hash_first := st.hash_first })

/-- `hash_cinit`.  `stored` is what the engine finds in the file and database being
opened; the handle is new and has returned no data yet.  The handle is not checked against
the size of `hash_dbs` and `meta`. -/
def hash_cinit (QH_DUP : Nat) (st : State) (stored : Entries) (flags : Nat) : Nat × State :=
  let idm0 := if st.hash_first then idm_init else st.idm
  let meta0 : Nat → meta :=
    if st.hash_first then fun _ => { len := 0, flags := 0, idm := { free := [], last := 0 } }
    else st.meta
  let r := idm_new idm0
  let id := r.1
  let m := meta0 id
  (id, { hash_dbs := setAt st.hash_dbs id
           { dup := decide (flags &&& QH_DUP ≠ 0), entries := stored, rdata := false },
         meta := setAt meta0 id { len := m.len, flags := flags, idm := m.idm },
         idm := r.2, hash_first := false })

/-- The loop of `hash_vdel`.  Every round moves the cursor forward, so the loop ends after
at most one round per entry plus one; `fuel` bounds the rounds and `none` means it ran
out. -/
def hash_vdel_loop (es : Entries) (value_data : Bytes) :
    Nat → DBC → DBT → DBT → c_flag → Option (Int × Entries)
  | 0, _, _, _, _ => none
  | fuel + 1, cursor, key, data, flags =>
    let r := c_get es cursor key data flags
    if r.ret ≠ 0 then some (r.ret, es)
    else if r.data.length = value_data.length ∧ memcmp r.data value_data value_data.length = 0
    then some (c_del es r.cursor)
    else hash_vdel_loop es value_data fuel r.cursor r.key r.data c_flag.DB_NEXT_DUP

/-- `hash_vdel`: status and state afterwards. -/
def hash_vdel (st : State) (hd : Nat) (key_data value_data : Bytes) : Option (Int × State) :=
  let db := st.hash_dbs hd
  match hash_vdel_loop db.entries value_data (db.entries.length + 1) { pos := none }
      key_data value_data c_flag.DB_SET with
  | none => none
  | some r =>
    some (if r.1 = DB_NOTFOUND then 0 else r.1,
          { hash_dbs := setAt st.hash_dbs hd
              { dup := db.dup, entries := r.2, rdata := db.rdata },
            meta := st.meta, idm := st.idm, hash_first := st.hash_first })

/-! ## libqhash.c: cursors -/

/-- A state in which every handle holds the table `db`, with fresh allocators. -/
def table_state (db : DB) : State :=
  { hash_dbs := fun _ => db,
    meta := fun _ => { len := 0, flags := 0, idm := idm_init },
    idm := idm_init, hash_first := true }

/-! ## libqhash.c: list-hash layer -/

/-- Modelled from the spec: `hash_del` is declared in `include/qhash.h`, which is not among
the sources; it removes what is stored under the key. -/
def hash_del (st : State) (hd : Nat) (key_r : Bytes) : State :=
  { hash_dbs := setAt st.hash_dbs hd (DB_del (st.hash_dbs hd) key_r).2, meta := st.meta,
    idm := st.idm, hash_first := st.hash_first }

/-- Modelled from the spec: `uhash_get` comes from `include/qhash.h`, which is not among
the sources; the list-hash layer is integer-keyed, the key being the `unsigned` id. -/
def uhash_get (st : State) (hd : Nat) (target : Bytes) (ref : Nat) :
    Option (Int × Bytes × State) :=
  hash_get st hd target (unsigned_bytes ref)

/-- Modelled from the spec: `uhash_put` comes from `include/qhash.h`, which is not among
the sources; it stores `value_len` bytes of `value` under the `unsigned` id. -/
def uhash_put (st : State) (hd : Nat) (ref : Nat) (value : Bytes) (value_len : Nat) :
    Int × State :=
  hash_put st hd (unsigned_bytes ref) (value.take value_len)

/-- Modelled from the spec: `uhash_del` comes from `include/qhash.h`, which is not among
the sources; it removes the item stored under the `unsigned` id. -/
def uhash_del (st : State) (hd : Nat) (ref : Nat) : State :=
  hash_del st hd (unsigned_bytes ref)

/-- Replaces the allocator of one handle. -/
def set_idm (st : State) (hd : Nat) (m : idm) : State :=
  { hash_dbs := st.hash_dbs,
    meta := setAt st.meta hd { len := (st.meta hd).len, flags := (st.meta hd).flags, idm := m },
    idm := st.idm, hash_first := st.hash_first }

/-- `lhash_flush`.  `plast` is an `unsigned`, an object of four bytes; `none` when the copy
into it runs past its end. -/
def lhash_flush (st : State) (hd : Nat) : Option State :=
  match uhash_get st hd (unsigned_bytes 0) UINT_MAX with
  | none => none
  | some plast =>
    let st1 := if plast.1 = 0 then uhash_del plast.2.2 hd UINT_MAX else plast.2.2
    some (uhash_put st1 hd UINT_MAX (unsigned_bytes (st.meta hd).idm.last) 4).2

/-- The scan of `lhash_cinit`: ids `0 .. last - 1` in increasing order, each pushed when
`uhash_get` does not find it.  `uhash_get` copies a found item into `ign`, an `unsigned`,
an object of four bytes; `none` when a copy runs past its end.  The result is the free list
and the state after the scan. -/
def lhash_cinit_scan (st : State) (hd : Nat) (last : Nat) : Option (List Nat × State) :=
  (List.range last).foldl
    (fun acc i =>
      match acc with
      | none => none
      | some p =>
        match uhash_get p.2 hd (unsigned_bytes 0) i with
        | none => none
        | some r => some (if r.1 ≠ 0 then idml_push p.1 i else p.1, r.2.2))
    (some ([], st))

/-- `lhash_cinit`; `stored` is what the engine finds in the file being opened.  `none` when
a copy into `meta[hd].idm.last` or into `ign` runs past the end of the object. -/
def lhash_cinit (QH_DUP : Nat) (st : State) (item_len : Nat) (stored : Entries) :
    Option (Nat × State) :=
  let r := hash_cinit QH_DUP st stored 0
  let hd := r.1
  match uhash_get r.2 hd (unsigned_bytes 0) UINT_MAX with
  | none => none
  | some g =>
    let last := unsigned_of_bytes g.2.1
    match lhash_cinit_scan g.2.2 hd last with
    | none => none
    | some sc =>
      some (hd, { hash_dbs := sc.2.hash_dbs,
                  meta := setAt sc.2.meta hd
                    { len := item_len, flags := 0, idm := { free := sc.1, last := last } },
                  idm := sc.2.idm, hash_first := sc.2.hash_first })

/-- `lh_len`. -/
def lh_len (st : State) (hd : Nat) (item : Bytes) : Nat :=
  if (st.meta hd).len ≠ 0 then wrapU (st.meta hd).len else wrapU (strlen item + 1)

/-- `lhash_new`: the id and the state afterwards. -/
def lhash_new (st : State) (hd : Nat) (item : Bytes) : Nat × State :=
  let r := idm_new (st.meta hd).idm
  let st1 := set_idm st hd r.2
  (r.1, (uhash_put st1 hd r.1 item (lh_len st1 hd item)).2)

/-- `lhash_del`. -/
def lhash_del (st : State) (hd : Nat) (ref : Nat) : State :=
  uhash_del (set_idm st hd (idm_del (st.meta hd).idm ref)) hd ref

/-- `lhash_put`: the counter is raised first; the loop then starts at the raised counter
and pushes the ids from there up to `id - 1`. -/
def lhash_put (st : State) (hd : Nat) (id : Nat) (source : Bytes) : Int × State :=
  let m := (st.meta hd).idm
  let last1 := if m.last ≤ id then wrapU (id + 1) else m.last
  let free1 := (List.range' last1 (id - last1)).foldl idml_push m.free
  let st1 := set_idm st hd { free := free1, last := last1 }
  uhash_put st1 hd id source (lh_len st1 hd source)

/-- Whether an item is stored at `id`: the table has an entry under the key of `id`. -/
def lh_stored (st : State) (hd : Nat) (id : Nat) : Bool :=
  (st.hash_dbs hd).entries.any (fun e => e.1 = unsigned_bytes id)

/-- One operation of the list-hash layer. -/
inductive LhOp where
  | new : Bytes → LhOp
  | put : Nat → Bytes → LhOp
  | del : Nat → LhOp
deriving DecidableEq, Repr

/-- Effect of one list-hash operation on the state. -/
def lhApply (st : State) (hd : Nat) : LhOp → State
  | LhOp.new item => (lhash_new st hd item).2
  | LhOp.put id item => (lhash_put st hd id item).2
  | LhOp.del id => lhash_del st hd id

/-- The operation is permitted: `lhash_del` only for an id that holds an item. -/
def lhAllowed (st : State) (hd : Nat) : LhOp → Bool
  | LhOp.del id => lh_stored st hd id
  | _ => true

/-- Further conditions: `lhash_put` only at an id below `UINT_MAX` that is not on the free
list, `lhash_new` only when the free list is non-empty or `last` is below `UINT_MAX`, and
`lhash_del` only at an id in the range of `unsigned`. -/
def lhGuard (st : State) (hd : Nat) : LhOp → Bool
  | LhOp.new _ => decide ((st.meta hd).idm.free ≠ [] ∨ (st.meta hd).idm.last < UINT_MAX)
  | LhOp.put id _ => decide (id < UINT_MAX ∧ id ∉ (st.meta hd).idm.free)
  | LhOp.del id => decide (id ≤ UINT_MAX)

/-- Runs list-hash operations from left to right; with `guarded` the further conditions
of `lhGuard` are required as well. -/
def lhRun (guarded : Bool) (hd : Nat) : List LhOp → State → Option State
  | [], st => some st
  | op :: ops, st =>
    if lhAllowed st hd op ∧ (guarded = true → lhGuard st hd op = true) then
      lhRun guarded hd ops (lhApply st hd op)
    else none

/-- Invariant of the list-hash layer on handle `hd`: the counter has not wrapped, every id
on the free list is below the counter and holds no item, the free list has no repeats, and
every id that holds an item is below the counter. -/
def LhInv (st : State) (hd : Nat) : Prop :=
  (st.meta hd).idm.last ≤ UINT_MAX ∧
  (∀ f ∈ (st.meta hd).idm.free, f < (st.meta hd).idm.last ∧ lh_stored st hd f = false) ∧
  (st.meta hd).idm.free.Nodup ∧
  (∀ i, i ≤ UINT_MAX → lh_stored st hd i = true → i < (st.meta hd).idm.last)

end Qhash

/-! ## qhash.c: the handle registry -/

namespace QhashC

open Qhash

end QhashC

namespace Qhash

/-! ## Theorems: id allocator -/

theorem idm_new_cons (id : Nat) (rest : List Nat) (last : Nat) (h : id ≠ UINT_MAX) :
    idm_new { free := id :: rest, last := last } = (id, { free := rest, last := last }) := by
  simp [idm_new, idml_pop, h]

theorem idm_new_nil (last : Nat) :
    idm_new { free := [], last := last } = (last, { free := [], last := wrapU (last + 1) }) := by
  simp [idm_new, idml_pop]

theorem wrapU_succ_of_lt {n : Nat} (h : n < UINT_MAX) : wrapU (n + 1) = n + 1 := by
  unfold UINT_MAX at h
  unfold wrapU
  omega

/-- C3, as stated, fails: with `(unsigned) -1` at the head of the free list `idm_new` does
not return that id and does not leave `last` unchanged; it returns `last` and raises it.
And on an empty free list with `last = UINT_MAX` the increment wraps `last` to `0`. -/
theorem idm_new_sentinel_head :
    idm_new { free := [4294967295, 3], last := 9 } = (9, { free := [3], last := 10 }) ∧
    (idm_new { free := [4294967295, 3], last := 9 }).1 ≠ 4294967295 ∧
    (idm_new { free := [4294967295, 3], last := 9 }).2.last ≠ 9 ∧
    idm_new { free := [], last := 4294967295 } = (4294967295, { free := [], last := 0 }) := by
  decide

/-- C3 (amended): on a non-empty free list whose head is not `(unsigned) -1`, `idm_new`
returns the head (the id pushed most recently), removes exactly it and leaves `last`
unchanged; on an empty free list it returns `last`, leaves the free list empty and sets
`last` to `last + 1` reduced modulo `2 ^ 32`, which is `last + 1` below `UINT_MAX`. -/
theorem idm_new_pop_or_fresh (m : idm) :
    (∀ id rest, m.free = id :: rest → id ≠ UINT_MAX →
      idm_new m = (id, { free := rest, last := m.last })) ∧
    (m.free = [] →
      idm_new m = (m.last, { free := [], last := wrapU (m.last + 1) }) ∧
      (m.last < UINT_MAX → (idm_new m).2.last = m.last + 1)) := by
  obtain ⟨free, last⟩ := m
  refine ⟨?_, ?_⟩
  · intro id rest hfree hid
    simp only at hfree
    subst hfree
    exact idm_new_cons id rest last hid
  · intro hfree
    simp only at hfree
    subst hfree
    refine ⟨idm_new_nil last, ?_⟩
    intro hlt
    rw [idm_new_nil]
    exact wrapU_succ_of_lt hlt

theorem idm_new_pop_or_fresh_witness :
    idm_new { free := [7, 3], last := 9 } = (7, { free := [3], last := 9 }) ∧
    idm_new { free := [], last := 9 } = (9, { free := [], last := wrapU (9 + 1) }) ∧
    (idm_new { free := [], last := 9 }).2.last = 9 + 1 :=
  ⟨(idm_new_pop_or_fresh { free := [7, 3], last := 9 }).1 7 [3] rfl (by decide),
   ((idm_new_pop_or_fresh { free := [], last := 9 }).2 rfl).1,
   ((idm_new_pop_or_fresh { free := [], last := 9 }).2 rfl).2 (by decide)⟩

/-! ### Sequences of `idm_new` and `idm_del` -/

theorem idmInv_init : IdmInv { m := idm_init, live := [] } := by
  simp [IdmInv, idm_init, UINT_MAX]

theorem idmInv_new {t : IdmTrace} (h : IdmInv t)
    (hg : t.m.free ≠ [] ∨ t.m.last < UINT_MAX) :
    IdmInv { m := (idm_new t.m).2, live := (idm_new t.m).1 :: t.live } := by
  obtain ⟨⟨free, last⟩, live⟩ := t
  obtain ⟨h1, h3, h4, h5, h6, h7⟩ := h
  simp only at h1 h3 h4 h5 h6 h7 hg
  cases free with
  | nil =>
    have hlt : last < UINT_MAX := by simpa using hg
    rw [idm_new_nil, wrapU_succ_of_lt hlt]
    refine ⟨by simp only; omega, ?_, by simp, by simp, ?_, by simp⟩
    · intro x hx
      simp only [List.mem_cons] at hx
      rcases hx with rfl | hx
      · simp
      · have := h3 x hx
        simp only
        omega
    · simp only [List.nodup_cons]
      refine ⟨fun hmem => ?_, h6⟩
      have := h3 last hmem
      omega
  | cons f rest =>
    have hf : f < last := h4 f (by simp)
    have hne : f ≠ UINT_MAX := by omega
    rw [idm_new_cons f rest last hne]
    have hnd := List.nodup_cons.mp h7
    refine ⟨h1, ?_, ?_, ?_, ?_, hnd.2⟩
    · intro x hx
      simp only [List.mem_cons] at hx
      rcases hx with rfl | hx
      · exact hf
      · exact h3 x hx
    · intro x hx
      exact h4 x (List.mem_cons_of_mem _ hx)
    · intro x hx
      simp only [List.mem_cons] at hx
      rcases hx with rfl | hx
      · exact hnd.1
      · intro hmem
        exact h5 x hx (List.mem_cons_of_mem _ hmem)
    · simp only [List.nodup_cons]
      refine ⟨fun hmem => ?_, h6⟩
      exact h5 f hmem (by simp)

theorem idmInv_del {t : IdmTrace} (h : IdmInv t) {id : Nat} (hid : id ∈ t.live) :
    IdmInv { m := idm_del t.m id, live := t.live.erase id } := by
  obtain ⟨⟨free, last⟩, live⟩ := t
  obtain ⟨h1, h3, h4, h5, h6, h7⟩ := h
  simp only at h1 h3 h4 h5 h6 h7 hid
  refine ⟨h1, ?_, ?_, ?_, h6.erase id, ?_⟩
  · intro x hx
    exact h3 x (List.mem_of_mem_erase hx)
  · intro x hx
    simp only [idm_del, idml_push, List.mem_cons] at hx
    rcases hx with rfl | hx
    · exact h3 x hid
    · exact h4 x hx
  · intro x hx
    have hx2 := (List.Nodup.mem_erase_iff h6).mp hx
    simp only [idm_del, idml_push, List.mem_cons, not_or]
    exact ⟨hx2.1, h5 x hx2.2⟩
  · simp only [idm_del, idml_push, List.nodup_cons]
    exact ⟨h5 id hid, h7⟩

theorem idmInv_run (ops : List IdmOp) :
    ∀ (t t1 : IdmTrace), IdmInv t → idmRun true ops t = some t1 → IdmInv t1 := by
  induction ops with
  | nil =>
    intro t t1 h hrun
    simp only [idmRun, Option.some.injEq] at hrun
    exact hrun ▸ h
  | cons op ops ih =>
    intro t t1 h hrun
    simp only [idmRun] at hrun
    split at hrun
    · rename_i hcond
      have hguard := hcond trivial
      cases op with
      | new =>
        simp only [idmGuard, decide_eq_true_eq] at hguard
        simp only [idmStep] at hrun
        exact ih _ t1 (idmInv_new h hguard) hrun
      | del id =>
        simp only [idmStep] at hrun
        by_cases hid : id ∈ t.live
        · simp only [hid, if_true] at hrun
          exact ih _ t1 (idmInv_del h hid) hrun
        · simp [hid] at hrun
    · simp at hrun

theorem idmInv_fresh {t : IdmTrace} (h : IdmInv t) : (idm_new t.m).1 ∉ t.live := by
  obtain ⟨⟨free, last⟩, live⟩ := t
  obtain ⟨h1, h3, h4, h5, _, _⟩ := h
  simp only at h1 h3 h4 h5
  cases free with
  | nil =>
    rw [idm_new_nil]
    intro hmem
    have := h3 last hmem
    omega
  | cons f rest =>
    have hf : f < last := h4 f (by simp)
    rw [idm_new_cons f rest last (by omega)]
    intro hmem
    exact h5 f hmem (by simp)

theorem wrapU_add_wrapU (a n : Nat) : wrapU (wrapU (a + 1) + n) = wrapU (a + (n + 1)) := by
  unfold wrapU
  rw [Nat.mod_add_mod, Nat.add_assoc, Nat.add_comm 1 n]

theorem wrapU_of_lt {a : Nat} (h : a < 4294967296) : wrapU a = a := by
  unfold wrapU
  exact Nat.mod_eq_of_lt h

theorem wrapU_lt (a : Nat) : wrapU a < 4294967296 := by
  unfold wrapU
  exact Nat.mod_lt _ (by norm_num)

theorem idmRun_new_cons (ops : List IdmOp) (t : IdmTrace) :
    idmRun false (IdmOp.new :: ops) t
      = idmRun false ops { m := (idm_new t.m).2, live := (idm_new t.m).1 :: t.live } := rfl

theorem idmRun_news (n : Nat) :
    ∀ (a : Nat) (live : List Nat), a < 4294967296 →
      ∃ live1, idmRun false (List.replicate n IdmOp.new)
            { m := { free := [], last := a }, live := live }
          = some { m := { free := [], last := wrapU (a + n) }, live := live1 } ∧
        ∀ x ∈ live, x ∈ live1 := by
  induction n with
  | zero =>
    intro a live ha
    refine ⟨live, ?_, fun x hx => hx⟩
    rw [Nat.add_zero, wrapU_of_lt ha]
    rfl
  | succ n ih =>
    intro a live ha
    obtain ⟨live1, hrun, hsub⟩ := ih (wrapU (a + 1)) (a :: live) (wrapU_lt _)
    refine ⟨live1, ?_, fun x hx => hsub x (List.mem_cons_of_mem _ hx)⟩
    rw [List.replicate_succ, idmRun_new_cons, idm_new_nil, ← wrapU_add_wrapU a n]
    exact hrun

theorem idmRun_news_from_init (n : Nat) :
    ∃ live1, idmRun false (List.replicate (n + 1) IdmOp.new) { m := idm_init, live := [] }
        = some { m := { free := [], last := wrapU (n + 1) }, live := live1 } ∧ 0 ∈ live1 := by
  obtain ⟨live1, hrun, hsub⟩ := idmRun_news n 1 [0] (by norm_num)
  refine ⟨live1, ?_, hsub 0 (by simp)⟩
  have e : wrapU (0 + 1) = 1 := wrapU_of_lt (by norm_num)
  rw [List.replicate_succ, idmRun_new_cons]
  show idmRun false _ { m := (idm_new { free := [], last := 0 }).2,
                        live := (idm_new { free := [], last := 0 }).1 :: [] } = _
  rw [idm_new_nil, e, Nat.add_comm n 1]
  exact hrun

/-- C2, as stated, fails: after `2 ^ 32` calls of `idm_new` (and no `del`) the counter has
wrapped to `0`, and the next `idm_new` returns `0`, an id that is still live. -/
theorem idm_new_repeats_after_wrap :
    ∃ t, idmRun false (List.replicate (4294967295 + 1) IdmOp.new) { m := idm_init, live := [] }
        = some t ∧
      (idm_new t.m).1 ∈ t.live := by
  obtain ⟨live1, hrun, h0⟩ := idmRun_news_from_init 4294967295
  refine ⟨_, hrun, ?_⟩
  have e : wrapU (4294967295 + 1) = 0 := by
    unfold wrapU
    norm_num
  rw [e, idm_new_nil]
  exact h0

/-- C2 (amended): for every sequence of `idm_new` and `del` operations from the initial
allocator in which `del` is only applied to live ids and `idm_new` is only called while the
free list is non-empty or `last` is below `UINT_MAX` (so that the counter does not wrap),
the id returned by a following `idm_new` differs from all live ids.  The number of
operations is not bounded. -/
theorem idm_new_unique_below_wrap (ops : List IdmOp) (t : IdmTrace)
    (hrun : idmRun true ops { m := idm_init, live := [] } = some t) :
    (idm_new t.m).1 ∉ t.live :=
  idmInv_fresh (idmInv_run ops _ t idmInv_init hrun)

theorem idm_new_unique_below_wrap_witness :
    (idm_new { free := [0], last := 3 }).1 ∉ [2, 1] :=
  idm_new_unique_below_wrap
    [IdmOp.new, IdmOp.new, IdmOp.del 0, IdmOp.new, IdmOp.new, IdmOp.del 0]
    { m := { free := [0], last := 3 }, live := [2, 1] } (by decide)

end Qhash

/-! ## Theorems: the registry of qhash.c -/

namespace QhashC

open Qhash

end QhashC
/-! ## Theorems: tables of libqhash.c -/

namespace Qhash

theorem find_DB_replace (key data : Bytes) (es : Entries) :
    (DB_replace key data es).find? (fun e => e.1 = key) = some (key, data) := by
  induction es with
  | nil => simp [DB_replace]
  | cons e es ih =>
    by_cases h : e.1 = key
    · simp [DB_replace, h]
    · simp [DB_replace, h, ih]

theorem setAt_same {α : Type} (a : Nat → α) (i : Nat) (v : α) : setAt a i v i = v := by
  simp [setAt]

theorem setAt_other {α : Type} (a : Nat → α) (i j : Nat) (v : α) (h : j ≠ i) :
    setAt a i v j = a j := by
  simp [setAt, h]

theorem setAt_self {α : Type} (a : Nat → α) (i : Nat) : setAt a i (a i) = a := by
  funext j
  by_cases h : j = i
  · simp [setAt, h]
  · simp [setAt, h]

theorem memcpy_all (dst src : Bytes) : memcpy dst src src.length = src ++ dst.drop src.length := by
  simp [memcpy]

theorem DBT_of_small {p : Bytes} (h : p.length < 4294967296) : DBT_of p = p := by
  unfold DBT_of
  rw [wrapU_of_lt h, List.take_length]

/-- What `__hash_get` returns right after `_hash_put` of the same key on a table without
duplicates: the pointer is `NULL` exactly when the stored datum is empty and the handle has
allocated no return memory. -/
theorem hash_get_after_put (db : DB) (key value : Bytes) (hdup : db.dup = false) :
    (__hash_get (_hash_put db key value).2 key).1
      = if DBT_of value = [] ∧ db.rdata = false then none else some (DBT_of value) := by
  simp [__hash_get, _hash_put, DB_put, DB_get, hdup, find_DB_replace, DB_NOTFOUND]

theorem hash_put_status (st : State) (hd : Nat) (key value : Bytes) :
    (hash_put st hd key value).1 = 0 := by
  unfold hash_put _hash_put DB_put
  split <;> rfl

theorem hash_get_view (st : State) (hd : Nat) (buf key : Bytes) :
    (hash_get st hd buf key).map (fun r => (r.1, r.2.1))
      = match (__hash_get (st.hash_dbs hd) key).1 with
        | none => some (1, buf)
        | some value =>
          if value.length ≤ buf.length then some (0, value ++ buf.drop value.length) else none := by
  unfold hash_get _hash_get
  rcases h : __hash_get (st.hash_dbs hd) key with ⟨ptr, db1⟩
  cases ptr with
  | none => simp
  | some value =>
    by_cases hle : value.length ≤ buf.length
    · simp [hle, memcpy_all]
    · simp [hle]

theorem hash_put_db (st : State) (hd : Nat) (key value : Bytes) :
    (hash_put st hd key value).2.hash_dbs hd = (_hash_put (st.hash_dbs hd) key value).2 := by
  simp [hash_put, setAt_same]

/-- C1, as stated, fails, in three ways.  An empty value stored through a handle that has
returned no data yet comes back from the engine with status `0` and a `NULL` data pointer,
and `hash_get` takes the `NULL` for not-found and returns `1`.  A value longer than the
output buffer makes the copy run past the end of the buffer.  A value of `2 ^ 32` bytes is
stored with the 32-bit size `0`, so what `hash_get` finds is the empty value. -/
theorem hash_get_misses_after_put :
    (hash_get (hash_put (table_state ⟨false, [], false⟩) 0 [1] []).2 0 [9] [1]).map
        (fun r => (r.1, r.2.1)) = some (1, [9]) ∧
    (hash_get (hash_put (table_state ⟨false, [], false⟩) 0 [1] [4, 5]).2 0 [9] [1]).map
        (fun r => (r.1, r.2.1)) = none ∧
    (hash_get (hash_put (table_state ⟨false, [], false⟩) 0 [1]
        (List.replicate 4294967296 7)).2 0 (List.replicate 4294967296 0) [1]).map
        (fun r => (r.1, r.2.1)) = some (1, List.replicate 4294967296 0) := by
  refine ⟨by decide, by decide, ?_⟩
  have hv : DBT_of (List.replicate 4294967296 (7 : Byte)) = [] := by
    unfold DBT_of
    rw [List.length_replicate]
    have e : wrapU 4294967296 = 0 := by
      unfold wrapU
      norm_num
    rw [e, List.take_zero]
  rw [hash_get_view, hash_put_db, hash_get_after_put _ _ _ rfl, hv]
  rfl

/-- C1 (amended): on a table opened without duplicate mode, for a value of fewer than
`2 ^ 32` bytes that is non-empty or is stored through a handle that has already returned a
non-empty value, and an output buffer of at least as many bytes as the value, `hash_put`
returns `0` and a following `hash_get` of the same key returns `0` and leaves the output
buffer holding exactly the bytes of the value in its first positions (the rest of the
buffer is untouched), whatever was stored under the key before. -/
theorem hash_put_then_get (st : State) (hd : Nat) (key value buf : Bytes)
    (hdup : (st.hash_dbs hd).dup = false)
    (hsize : value.length < 4294967296)
    (hbuf : value.length ≤ buf.length)
    (hval : value ≠ [] ∨ (st.hash_dbs hd).rdata = true) :
    (hash_put st hd key value).1 = 0 ∧
    (hash_get (hash_put st hd key value).2 hd buf key).map (fun r => (r.1, r.2.1))
      = some (0, value ++ buf.drop value.length) := by
  refine ⟨hash_put_status st hd key value, ?_⟩
  rw [hash_get_view, hash_put_db, hash_get_after_put _ _ _ hdup, DBT_of_small hsize]
  have hnot : ¬ (value = [] ∧ (st.hash_dbs hd).rdata = false) := by
    rintro ⟨h1, h2⟩
    rcases hval with h | h
    · exact h h1
    · rw [h2] at h
      exact absurd h (by simp)
  simp [hnot, hbuf]

theorem hash_put_then_get_witness :
    (hash_put (table_state ⟨false, [([1], [7, 7, 7])], false⟩) 0 [1] [4, 5]).1 = 0 ∧
    (hash_get (hash_put (table_state ⟨false, [([1], [7, 7, 7])], false⟩) 0 [1]
      [4, 5]).2 0 [9, 9, 9] [1]).map (fun r => (r.1, r.2.1)) = some (0, [4, 5] ++ [9]) :=
  hash_put_then_get (table_state ⟨false, [([1], [7, 7, 7])], false⟩) 0 [1] [4, 5]
    [9, 9, 9] rfl (by decide) (by decide) (Or.inl (by decide))

end Qhash
/-! ## Theorems: `hash_vdel` -/

namespace Qhash

theorem firstIdx_none {p : Bytes × Bytes → Bool} {es : Entries} (h : firstIdx p es = none) :
    ∀ e ∈ es, p e = false := by
  induction es with
  | nil => simp
  | cons e es ih =>
    by_cases hp : p e = true
    · simp [firstIdx, hp] at h
    · simp only [firstIdx, hp, Bool.false_eq_true, if_false, Option.map_eq_none'] at h
      intro x hx
      simp only [List.mem_cons] at hx
      rcases hx with rfl | hx
      · simpa using hp
      · exact ih h x hx

theorem firstIdx_some {p : Bytes × Bytes → Bool} {es : Entries} {j : Nat}
    (h : firstIdx p es = some j) :
    ∃ p1 e p2, es = p1 ++ e :: p2 ∧ p1.length = j ∧ p e = true ∧ ∀ x ∈ p1, p x = false := by
  induction es generalizing j with
  | nil => simp [firstIdx] at h
  | cons e es ih =>
    by_cases hp : p e = true
    · simp only [firstIdx, hp, if_true, Option.some.injEq] at h
      exact ⟨[], e, es, rfl, by simpa using h, hp, by simp⟩
    · simp only [firstIdx, hp, Bool.false_eq_true, if_false, Option.map_eq_some'] at h
      obtain ⟨i, hi, hij⟩ := h
      obtain ⟨p1, e1, p2, hes, hlen, hpe, hall⟩ := ih hi
      refine ⟨e :: p1, e1, p2, by simp [hes], by simp [hlen, hij], hpe, ?_⟩
      intro x hx
      simp only [List.mem_cons] at hx
      rcases hx with rfl | hx
      · simpa using hp
      · exact hall x hx

theorem value_match_iff (data value : Bytes) :
    (data.length = value.length ∧ memcmp data value value.length = 0) ↔ data = value := by
  constructor
  · rintro ⟨hlen, hcmp⟩
    unfold memcmp at hcmp
    split at hcmp
    · rename_i h
      have h1 : data.take value.length = data := by
        rw [← hlen]
        exact List.take_length data
      rw [h1, List.take_length] at h
      exact h
    · simp at hcmp
  · rintro rfl
    simp [memcmp]

theorem get_append_at (pre : Entries) (e : Bytes × Bytes) (post : Entries) (j : Nat)
    (hj : pre.length = j) : (pre ++ e :: post)[j]? = some e := by
  subst hj
  rw [List.getElem?_append_right (Nat.le_refl _), Nat.sub_self]
  simp

/-- The loop of `hash_vdel`, started with a `get` that looks for the first entry under `k`
in the part `post` of the table, deletes the first `(k, v)` of `post`. -/
theorem hash_vdel_loop_spec (es : Entries) (k v : Bytes) :
    ∀ (fuel : Nat) (pre post : Entries) (cursor : DBC) (key data : DBT) (flags : c_flag),
      es = pre ++ post → post.length < fuel →
      c_get es cursor key data flags
        = c_goto es cursor key data
            ((firstIdx (fun e => e.1 = k) post).map (fun j => j + pre.length)) →
      hash_vdel_loop es v fuel cursor key data flags
        = some (if (k, v) ∈ post then 0 else DB_NOTFOUND, pre ++ post.erase (k, v)) := by
  intro fuel
  induction fuel with
  | zero =>
    intro pre post cursor key data flags _ hlt
    omega
  | succ fuel ih =>
    intro pre post cursor key data flags hes hlt hget
    unfold hash_vdel_loop
    simp only [hget]
    cases hfi : firstIdx (fun e => decide (e.1 = k)) post with
    | none =>
      have hno := firstIdx_none hfi
      have hnot : (k, v) ∉ post := by
        intro hm
        have := hno (k, v) hm
        simp at this
      simp [c_goto, DB_NOTFOUND, hnot, List.erase_of_not_mem hnot, hes]
    | some j =>
      obtain ⟨p1, e1, p2, hpost, hlen, hkey, hall⟩ := firstIdx_some hfi
      have hkey1 : e1.1 = k := by simpa using hkey
      have hnot1 : (k, v) ∉ p1 := by
        intro hm
        have := hall (k, v) hm
        simp at this
      have hes2 : es = (pre ++ p1) ++ e1 :: p2 := by rw [hes, hpost]; simp
      have hgetj : es[j + pre.length]? = some e1 := by
        rw [hes2]
        exact get_append_at _ _ _ _ (by simp [hlen]; omega)
      simp only [Option.map_some', c_goto, hgetj]
      by_cases hval : e1.2 = v
      · have he1 : e1 = (k, v) := Prod.ext hkey1 hval
        have hmem : (k, v) ∈ post := by rw [hpost, he1]; simp
        have hcond : e1.2.length = v.length ∧ memcmp e1.2 v v.length = 0 :=
          (value_match_iff _ _).mpr hval
        have herase : post.erase (k, v) = p1 ++ p2 := by
          rw [hpost, List.erase_append_right _ hnot1, he1, List.erase_cons_head]
        have hidx : es.eraseIdx (j + pre.length) = pre ++ (p1 ++ p2) := by
          rw [hes2, List.eraseIdx_append_of_length_le (by simp [hlen]; omega)]
          have e0 : j + pre.length - (pre ++ p1).length = 0 := by simp [hlen]; omega
          rw [e0]
          simp
        simp [hcond, c_del, hmem, herase, hidx]
      · have hne : e1 ≠ (k, v) := fun h => hval (by rw [h])
        have hcond : ¬ (e1.2.length = v.length ∧ memcmp e1.2 v v.length = 0) :=
          fun h => hval ((value_match_iff _ _).mp h)
        have hmemiff : (k, v) ∈ post ↔ (k, v) ∈ p2 := by
          rw [hpost]
          simp only [List.mem_append, List.mem_cons]
          constructor
          · rintro (h | h | h)
            · exact absurd h hnot1
            · exact absurd h.symm hne
            · exact h
          · intro h
            exact Or.inr (Or.inr h)
        have herase : post.erase (k, v) = p1 ++ e1 :: p2.erase (k, v) := by
          rw [hpost, List.erase_append_right _ hnot1, List.erase_cons_tail (by simpa using hne)]
        have hlt2 : p2.length < fuel := by
          rw [hpost] at hlt
          simp at hlt
          omega
        have hpre : (pre ++ p1 ++ [e1]).length = j + pre.length + 1 := by
          simp [hlen]; omega
        have hdrop : es.drop (j + pre.length + 1) = p2 := by
          have : es = (pre ++ p1 ++ [e1]) ++ p2 := by rw [hes2]; simp
          rw [this, ← hpre, List.drop_left]
        have hget2 : c_get es { pos := some (j + pre.length) } e1.1 e1.2 c_flag.DB_NEXT_DUP
            = c_goto es { pos := some (j + pre.length) } e1.1 e1.2
                ((firstIdx (fun e => e.1 = k) p2).map
                  (fun i => i + (pre ++ p1 ++ [e1]).length)) := by
          simp only [c_get, hgetj, hdrop, hkey1, hpre]
        have := ih (pre ++ p1 ++ [e1]) p2 { pos := some (j + pre.length) } e1.1 e1.2
          c_flag.DB_NEXT_DUP (by rw [hes2]; simp) hlt2 hget2
        simp only [hcond, if_false]
        simp only [this, herase]
        simp [hmemiff]

theorem hash_vdel_eq (st : State) (hd : Nat) (k v : Bytes) :
    hash_vdel st hd k v
      = some (0, { hash_dbs := setAt st.hash_dbs hd
                      { dup := (st.hash_dbs hd).dup,
                        entries := (st.hash_dbs hd).entries.erase (k, v),
                        rdata := (st.hash_dbs hd).rdata },
                   meta := st.meta, idm := st.idm, hash_first := st.hash_first }) := by
  have h := hash_vdel_loop_spec (st.hash_dbs hd).entries k v
    ((st.hash_dbs hd).entries.length + 1) [] (st.hash_dbs hd).entries { pos := none } k v
    c_flag.DB_SET (by simp) (by omega) (by simp [c_get])
  unfold hash_vdel
  simp only [h]
  by_cases hm : (k, v) ∈ (st.hash_dbs hd).entries
  · simp [hm, DB_NOTFOUND]
  · simp [hm]

/-- C4: when some entry under `k` has value `v`, `hash_vdel` returns `0` and removes exactly
one entry of the table, the first `(k, v)` in cursor order, that is the first entry under
`k` whose value equals `v`; every other entry (further copies of `v` under `k`, other
duplicates of `k`, entries under other keys) stays, in the same order, and no other table
changes. -/
theorem hash_vdel_removes_first_match (st : State) (hd : Nat) (k v : Bytes)
    (h : (k, v) ∈ (st.hash_dbs hd).entries) :
    ∃ st1 pre post, hash_vdel st hd k v = some (0, st1) ∧
      (st.hash_dbs hd).entries = pre ++ (k, v) :: post ∧ (k, v) ∉ pre ∧
      (st1.hash_dbs hd).entries = pre ++ post ∧
      (st1.hash_dbs hd).dup = (st.hash_dbs hd).dup ∧
      (∀ h1, h1 ≠ hd → st1.hash_dbs h1 = st.hash_dbs h1) ∧
      st1.meta = st.meta ∧ st1.idm = st.idm := by
  obtain ⟨pre, post, hnot, hsplit, herase⟩ := List.exists_erase_eq h
  refine ⟨_, pre, post, hash_vdel_eq st hd k v, hsplit, hnot, ?_, ?_, ?_, rfl, rfl⟩
  · simp [setAt_same, herase]
  · simp [setAt_same]
  · intro h1 hne
    exact setAt_other _ _ _ _ hne

theorem hash_vdel_removes_first_match_witness :
    ∃ st1 pre post,
      hash_vdel (table_state ⟨true, [([1], [7]), ([2], [5]), ([1], [5]), ([1], [9]), ([1], [5])], false⟩)
          0 [1] [5] = some (0, st1) ∧
      [([1], [7]), ([2], [5]), ([1], [5]), ([1], [9]), ([1], [5])] = pre ++ ([1], [5]) :: post ∧
      (([1], [5]) : Bytes × Bytes) ∉ pre ∧
      (st1.hash_dbs 0).entries = pre ++ post ∧
      (st1.hash_dbs 0).dup = true ∧
      (∀ h1, h1 ≠ 0 → st1.hash_dbs h1
        = ⟨true, [([1], [7]), ([2], [5]), ([1], [5]), ([1], [9]), ([1], [5])], false⟩) ∧
      st1.meta = (fun _ => ⟨0, 0, idm_init⟩) ∧ st1.idm = idm_init :=
  hash_vdel_removes_first_match
    (table_state ⟨true, [([1], [7]), ([2], [5]), ([1], [5]), ([1], [9]), ([1], [5])], false⟩) 0 [1] [5]
    (by decide)

end Qhash

/-! ## Theorems: cursors -/

namespace Qhash

end Qhash

/-! ## Theorems: list-hash layer -/

namespace Qhash

theorem unsigned_roundtrip (n : Nat) (h : n < 4294967296) :
    unsigned_of_bytes (unsigned_bytes n) = n := by
  simp [unsigned_of_bytes, unsigned_bytes, Fin.ofNat]
  omega

theorem unsigned_bytes_inj {a b : Nat} (ha : a < 4294967296) (hb : b < 4294967296)
    (h : unsigned_bytes a = unsigned_bytes b) : a = b := by
  rw [← unsigned_roundtrip a ha, ← unsigned_roundtrip b hb, h]

theorem DBT_of_unsigned (n : Nat) : DBT_of (unsigned_bytes n) = unsigned_bytes n := rfl

theorem any_key_iff (es : Entries) (k : Bytes) :
    es.any (fun e => decide (e.1 = k)) = true ↔ ∃ e ∈ es, e.1 = k := by
  simp [List.any_eq_true]

theorem mem_DB_replace (key data : Bytes) (es : Entries) (k : Bytes) :
    (∃ e ∈ DB_replace key data es, e.1 = k) ↔ (k = key ∨ ∃ e ∈ es, e.1 = k) := by
  induction es with
  | nil => simp [DB_replace, eq_comm]
  | cons e es ih =>
    by_cases h : e.1 = key
    · simp only [DB_replace, h, if_true, List.mem_cons, exists_eq_or_imp]
      constructor
      · rintro (h1 | h1)
        · exact Or.inl h1.symm
        · exact Or.inr (Or.inr h1)
      · rintro (h1 | h1 | h1)
        · exact Or.inl h1.symm
        · exact Or.inl h1
        · exact Or.inr h1
    · simp only [DB_replace, h, if_false, List.mem_cons, exists_eq_or_imp, ih]
      tauto

theorem stored_after_put (db : DB) (key data k : Bytes) :
    (DB_put db key data).2.entries.any (fun e => decide (e.1 = k)) = true
      ↔ (k = key ∨ db.entries.any (fun e => decide (e.1 = k)) = true) := by
  rw [any_key_iff, any_key_iff]
  unfold DB_put
  by_cases hd : db.dup = true
  · simp only [hd, if_true, List.mem_append, List.mem_singleton]
    constructor
    · rintro ⟨e, he | he, hk⟩
      · exact Or.inr ⟨e, he, hk⟩
      · exact Or.inl (by rw [← hk, he])
    · rintro (h | ⟨e, he, hk⟩)
      · exact ⟨(key, data), Or.inr rfl, h.symm⟩
      · exact ⟨e, Or.inl he, hk⟩
  · simp only [hd, Bool.false_eq_true, if_false]
    exact mem_DB_replace key data db.entries k

theorem stored_after_del (db : DB) (key k : Bytes) :
    (DB_del db key).2.entries.any (fun e => decide (e.1 = k)) = true
      ↔ (k ≠ key ∧ db.entries.any (fun e => decide (e.1 = k)) = true) := by
  rw [any_key_iff, any_key_iff]
  unfold DB_del
  by_cases hany : db.entries.any (fun e => decide (e.1 = key)) = true
  · simp only [hany, if_true, List.mem_filter, decide_eq_true_eq]
    constructor
    · rintro ⟨e, ⟨he, hne⟩, hk⟩
      exact ⟨by rw [← hk]; simpa using hne, e, he, hk⟩
    · rintro ⟨hne, e, he, hk⟩
      exact ⟨e, ⟨he, by rw [hk]; simpa using hne⟩, hk⟩
  · simp only [hany, Bool.false_eq_true, if_false]
    constructor
    · rintro ⟨e, he, hk⟩
      refine ⟨?_, e, he, hk⟩
      intro hkk
      apply hany
      simp only [List.any_eq_true, decide_eq_true_eq]
      exact ⟨e, he, hk.trans hkk⟩
    · rintro ⟨_, h⟩
      exact h

/-- C9, evaluated.  A list-hash table is created for items of eight bytes, one item is
stored with `lhash_new` (id `0`, `last` becomes `1`) and the table is flushed.  On the
reopen the scan of `lhash_cinit` finds the item at id `0` and `uhash_get` copies its eight
bytes into the four-byte `ign`: the copy runs past the end of the object and no allocator
is rebuilt.  With items of four bytes the same steps rebuild `last = 1` and an empty free
list. -/
theorem lhash_cinit_overruns_ign :
    (∃ st0 st1,
      lhash_cinit 2 (table_state ⟨false, [], false⟩) 8 [] = some (0, st0) ∧
      lhash_flush (lhash_new st0 0 [1, 2, 3, 4, 5, 6, 7, 8]).2 0 = some st1 ∧
      (st1.hash_dbs 0).entries
        = [([0, 0, 0, 0], [1, 2, 3, 4, 5, 6, 7, 8]), ([255, 255, 255, 255], [1, 0, 0, 0])] ∧
      (st1.meta 0).idm = { free := [], last := 1 } ∧
      (lhash_cinit 2 (table_state ⟨false, [], false⟩) 8 (st1.hash_dbs 0).entries).isNone
        = true) ∧
    (∃ st0 st1,
      lhash_cinit 2 (table_state ⟨false, [], false⟩) 4 [] = some (0, st0) ∧
      lhash_flush (lhash_new st0 0 [1, 2, 3, 4]).2 0 = some st1 ∧
      (lhash_cinit 2 (table_state ⟨false, [], false⟩) 4 (st1.hash_dbs 0).entries).map
          (fun r => (r.2.meta r.1).idm) = some { free := [], last := 1 }) :=
  ⟨⟨_, _, rfl, rfl, by decide, by decide, by decide⟩, ⟨_, _, rfl, rfl, by decide⟩⟩

/-- C8, evaluated: on a fresh list-hash table (`last = 0`, empty free list) `lhash_put` at id
`2` stores the item and raises `last` to `3`, but pushes neither `0` nor `1`: the loop starts
at the counter that was just raised. -/
theorem lhash_put_pushes_no_gap :
    ((lhash_put (table_state ⟨false, [], false⟩) 0 2 [65, 0]).2.meta 0).idm = { free := [], last := 3 } ∧
    lh_stored (lhash_put (table_state ⟨false, [], false⟩) 0 2 [65, 0]).2 0 2 = true := by
  decide

/-! ### `lhash_new`, `lhash_put`, `lhash_del` and the invariant -/

theorem lhash_new_id (st : State) (hd : Nat) (item : Bytes) :
    (lhash_new st hd item).1 = (idm_new (st.meta hd).idm).1 := rfl

theorem lhash_new_meta (st : State) (hd : Nat) (item : Bytes) :
    ((lhash_new st hd item).2.meta hd).idm = (idm_new (st.meta hd).idm).2 := by
  simp [lhash_new, uhash_put, hash_put, set_idm, setAt_same]

theorem lhash_new_stored (st : State) (hd : Nat) (item : Bytes) (i : Nat) :
    lh_stored (lhash_new st hd item).2 hd i = true
      ↔ (unsigned_bytes i = unsigned_bytes (idm_new (st.meta hd).idm).1
          ∨ lh_stored st hd i = true) := by
  simp only [lh_stored, lhash_new, uhash_put, hash_put, _hash_put, setAt_same, stored_after_put,
    DBT_of_unsigned]
  rfl

theorem range_empty_of_lt {a b : Nat} (h : b < a) : List.range' a (b - a) = [] := by
  have : b - a = 0 := by omega
  rw [this]
  rfl

theorem lhash_put_meta (st : State) (hd id : Nat) (source : Bytes) (hid : id < UINT_MAX) :
    ((lhash_put st hd id source).2.meta hd).idm
      = { free := (st.meta hd).idm.free,
          last := if (st.meta hd).idm.last ≤ id then id + 1 else (st.meta hd).idm.last } := by
  have hw : wrapU (id + 1) = id + 1 := wrapU_succ_of_lt hid
  by_cases h : (st.meta hd).idm.last ≤ id
  · simp [lhash_put, uhash_put, hash_put, set_idm, setAt_same, h, hw,
      range_empty_of_lt (Nat.lt_succ_self id)]
  · simp [lhash_put, uhash_put, hash_put, set_idm, setAt_same, h,
      range_empty_of_lt (Nat.lt_of_not_le h)]

theorem lhash_put_stored (st : State) (hd id : Nat) (source : Bytes) (i : Nat) :
    lh_stored (lhash_put st hd id source).2 hd i = true
      ↔ (unsigned_bytes i = unsigned_bytes id ∨ lh_stored st hd i = true) := by
  simp only [lh_stored, lhash_put, uhash_put, hash_put, _hash_put, setAt_same, stored_after_put,
    DBT_of_unsigned]
  rfl

theorem lhash_del_meta (st : State) (hd ref : Nat) :
    ((lhash_del st hd ref).meta hd).idm = idm_del (st.meta hd).idm ref := by
  simp [lhash_del, uhash_del, hash_del, set_idm, setAt_same]

theorem lhash_del_stored (st : State) (hd ref : Nat) (i : Nat) :
    lh_stored (lhash_del st hd ref) hd i = true
      ↔ (unsigned_bytes i ≠ unsigned_bytes ref ∧ lh_stored st hd i = true) := by
  simp only [lh_stored, lhash_del, uhash_del, hash_del, setAt_same, stored_after_del]
  rfl

theorem bytes_eq_iff {a b : Nat} (ha : a ≤ UINT_MAX) (hb : b ≤ UINT_MAX) :
    unsigned_bytes a = unsigned_bytes b ↔ a = b := by
  unfold UINT_MAX at ha hb
  constructor
  · exact unsigned_bytes_inj (by omega) (by omega)
  · rintro rfl
    rfl

theorem lhInv_new {st : State} {hd : Nat} (h : LhInv st hd) (item : Bytes)
    (hg : (st.meta hd).idm.free ≠ [] ∨ (st.meta hd).idm.last < UINT_MAX) :
    LhInv (lhash_new st hd item).2 hd := by
  obtain ⟨h1, h2, h3, h4⟩ := h
  unfold LhInv
  rw [lhash_new_meta]
  generalize hm : (st.meta hd).idm = m at h1 h2 h3 h4 hg
  obtain ⟨free, last⟩ := m
  simp only at h1 h2 h3 h4 hg
  cases free with
  | nil =>
    have hlt : last < UINT_MAX := by simpa using hg
    rw [idm_new_nil, wrapU_succ_of_lt hlt]
    refine ⟨by simp only; omega, by simp, by simp, ?_⟩
    intro i hi hs
    rw [lhash_new_stored, hm, idm_new_nil] at hs
    simp only
    rcases hs with hs | hs
    · have := (bytes_eq_iff hi h1).mp hs
      omega
    · have := h4 i hi hs
      omega
  | cons f rest =>
    have hf := h2 f (by simp)
    have hne : f ≠ UINT_MAX := by omega
    have hnd := List.nodup_cons.mp h3
    rw [idm_new_cons f rest last hne]
    refine ⟨h1, ?_, hnd.2, ?_⟩
    · intro g hg2
      have hgm := h2 g (List.mem_cons_of_mem _ hg2)
      refine ⟨hgm.1, ?_⟩
      cases hs : lh_stored (lhash_new st hd item).2 hd g with
      | false => rfl
      | true =>
        rw [lhash_new_stored, hm, idm_new_cons f rest last hne] at hs
        rcases hs with hs | hs
        · have hgf : g = f := (bytes_eq_iff (by omega) (by omega)).mp hs
          exact absurd (hgf ▸ hg2) hnd.1
        · rw [hgm.2] at hs
          exact absurd hs (by simp)
    · intro i hi hs
      rw [lhash_new_stored, hm, idm_new_cons f rest last hne] at hs
      simp only
      rcases hs with hs | hs
      · have := (bytes_eq_iff hi (by omega)).mp hs
        omega
      · exact h4 i hi hs

theorem lhInv_put {st : State} {hd : Nat} (h : LhInv st hd) (id : Nat) (source : Bytes)
    (hid : id < UINT_MAX) (hfree : id ∉ (st.meta hd).idm.free) :
    LhInv (lhash_put st hd id source).2 hd := by
  obtain ⟨h1, h2, h3, h4⟩ := h
  unfold LhInv
  rw [lhash_put_meta st hd id source hid]
  simp only
  refine ⟨?_, ?_, h3, ?_⟩
  · split <;> omega
  · intro g hg
    have hgm := h2 g hg
    refine ⟨by split <;> omega, ?_⟩
    cases hs : lh_stored (lhash_put st hd id source).2 hd g with
    | false => rfl
    | true =>
      rw [lhash_put_stored] at hs
      rcases hs with hs | hs
      · have hgi : g = id := (bytes_eq_iff (by omega) (by omega)).mp hs
        exact absurd (hgi ▸ hg) hfree
      · rw [hgm.2] at hs
        exact absurd hs (by simp)
  · intro i hi hs
    rw [lhash_put_stored] at hs
    rcases hs with hs | hs
    · have := (bytes_eq_iff hi (by omega)).mp hs
      split <;> omega
    · have := h4 i hi hs
      split <;> omega

theorem lhInv_del {st : State} {hd : Nat} (h : LhInv st hd) (id : Nat)
    (hid : id ≤ UINT_MAX) (hst : lh_stored st hd id = true) :
    LhInv (lhash_del st hd id) hd := by
  obtain ⟨h1, h2, h3, h4⟩ := h
  unfold LhInv
  rw [lhash_del_meta]
  simp only [idm_del, idml_push]
  have hnot : ∀ g, lh_stored st hd g = false → lh_stored (lhash_del st hd id) hd g = false := by
    intro g hg
    cases hs : lh_stored (lhash_del st hd id) hd g with
    | false => rfl
    | true =>
      rw [lhash_del_stored, hg] at hs
      exact absurd hs.2 (by simp)
  refine ⟨h1, ?_, ?_, ?_⟩
  · intro g hg
    simp only [List.mem_cons] at hg
    rcases hg with rfl | hg
    · refine ⟨h4 g hid hst, ?_⟩
      cases hs : lh_stored (lhash_del st hd g) hd g with
      | false => rfl
      | true =>
        rw [lhash_del_stored] at hs
        exact absurd rfl hs.1
    · exact ⟨(h2 g hg).1, hnot g (h2 g hg).2⟩
  · simp only [List.nodup_cons]
    refine ⟨fun hmem => ?_, h3⟩
    have := (h2 id hmem).2
    rw [hst] at this
    exact absurd this (by simp)
  · intro i hi hs
    rw [lhash_del_stored] at hs
    exact h4 i hi hs.2

theorem lhInv_run (hd : Nat) (ops : List LhOp) :
    ∀ st st1 : State, LhInv st hd → lhRun true hd ops st = some st1 → LhInv st1 hd := by
  induction ops with
  | nil =>
    intro st st1 h hrun
    simp only [lhRun, Option.some.injEq] at hrun
    exact hrun ▸ h
  | cons op ops ih =>
    intro st st1 h hrun
    simp only [lhRun] at hrun
    split at hrun
    · rename_i hcond
      obtain ⟨hallow, hguard⟩ := hcond
      have hguard := hguard trivial
      refine ih _ st1 ?_ hrun
      cases op with
      | new item =>
        simp only [lhGuard, decide_eq_true_eq] at hguard
        exact lhInv_new h item hguard
      | put id item =>
        simp only [lhGuard, decide_eq_true_eq] at hguard
        exact lhInv_put h id item hguard.1 hguard.2
      | del id =>
        simp only [lhGuard, decide_eq_true_eq] at hguard
        simp only [lhAllowed] at hallow
        exact lhInv_del h id hguard hallow
    · simp at hrun

theorem lhInv_fresh {st : State} {hd : Nat} (h : LhInv st hd) (item : Bytes) :
    lh_stored st hd (lhash_new st hd item).1 = false := by
  obtain ⟨h1, h2, _, h4⟩ := h
  rw [lhash_new_id]
  generalize (st.meta hd).idm = m at h1 h2 h4
  obtain ⟨free, last⟩ := m
  simp only at h1 h2 h4
  cases free with
  | nil =>
    rw [idm_new_nil]
    cases hs : lh_stored st hd last with
    | false => rfl
    | true =>
      have := h4 last h1 hs
      omega
  | cons f rest =>
    have hf := h2 f (by simp)
    rw [idm_new_cons f rest last (by omega)]
    exact hf.2

theorem lhash_cinit_empty {QH_DUP : Nat} {stp st0 : State} {item_len hd : Nat}
    (hinit : lhash_cinit QH_DUP stp item_len [] = some (hd, st0)) :
    (st0.hash_dbs hd).entries = [] ∧ (st0.meta hd).idm = { free := [], last := 0 } := by
  have hdb : ((hash_cinit QH_DUP stp [] 0).2.hash_dbs (hash_cinit QH_DUP stp [] 0).1)
      = { dup := false, entries := [], rdata := false } := by
    simp [hash_cinit, setAt_same]
  have hget : uhash_get (hash_cinit QH_DUP stp [] 0).2 (hash_cinit QH_DUP stp [] 0).1
      (unsigned_bytes 0) UINT_MAX
      = some (1, unsigned_bytes 0,
          { hash_dbs := setAt (hash_cinit QH_DUP stp [] 0).2.hash_dbs (hash_cinit QH_DUP stp [] 0).1
              { dup := false, entries := [], rdata := false },
            meta := (hash_cinit QH_DUP stp [] 0).2.meta,
            idm := (hash_cinit QH_DUP stp [] 0).2.idm,
            hash_first := (hash_cinit QH_DUP stp [] 0).2.hash_first }) := by
    simp only [uhash_get, hash_get, _hash_get, __hash_get, DB_get, hdb]
    rfl
  have e : unsigned_of_bytes (unsigned_bytes 0) = 0 := by decide
  unfold lhash_cinit at hinit
  simp only [hget, e, lhash_cinit_scan, List.range_zero, List.foldl_nil, Option.some.injEq,
    Prod.mk.injEq] at hinit
  obtain ⟨rfl, rfl⟩ := hinit
  simp [setAt_same]

theorem lhInv_created {QH_DUP : Nat} {stp st0 : State} {item_len hd : Nat}
    (hinit : lhash_cinit QH_DUP stp item_len [] = some (hd, st0)) : LhInv st0 hd := by
  obtain ⟨hes, hm⟩ := lhash_cinit_empty hinit
  have hno : ∀ i, lh_stored st0 hd i = false := by
    intro i
    simp [lh_stored, hes]
  unfold LhInv
  rw [hm]
  refine ⟨by simp, by simp, by simp, ?_⟩
  intro i _ hs
  rw [hno i] at hs
  exact absurd hs (by simp)

/-- C10, as stated, fails.  First: on a freshly created table, two `lhash_new` (ids `0` and
`1`), `lhash_del` of `0`, then `lhash_put` at `0` leave `0` on the free list while an item
is stored there, and the next `lhash_new` returns `0`, where that item is still stored.
Second: after `lhash_new` (id `0`), `lhash_put` at `UINT_MAX - 1` and another `lhash_new`
(which returns `UINT_MAX`), the counter has wrapped to `0` and the next `lhash_new` returns
`0`, where the first item is still stored. -/
theorem lhash_new_overwrites_after_put :
    (∃ hd st0 st,
      lhash_cinit 2 (table_state ⟨false, [], false⟩) 0 [] = some (hd, st0) ∧
      lhRun false hd [LhOp.new [65, 0], LhOp.new [64, 0], LhOp.del 0, LhOp.put 0 [66, 0]] st0
        = some st ∧
      (lhash_new st hd [67, 0]).1 = 0 ∧
      lh_stored st hd (lhash_new st hd [67, 0]).1 = true) ∧
    (∃ hd st0 st,
      lhash_cinit 2 (table_state ⟨false, [], false⟩) 0 [] = some (hd, st0) ∧
      lhRun false hd [LhOp.new [65, 0], LhOp.put 4294967294 [66, 0], LhOp.new [64, 0]] st0
        = some st ∧
      (lhash_new st hd [67, 0]).1 = 0 ∧
      lh_stored st hd (lhash_new st hd [67, 0]).1 = true) :=
  ⟨⟨0, _, _, rfl, rfl, by decide, by decide⟩, ⟨0, _, _, rfl, rfl, by decide, by decide⟩⟩

/-- C10 (amended): in every list-hash state reached from a freshly created empty table by
`lhash_new`, `lhash_put` and `lhash_del`, where `lhash_del` is applied only to ids that hold
an item, `lhash_put` only to ids below `UINT_MAX` that are not on the free list, and
`lhash_new` only while the free list is non-empty or `last` is below `UINT_MAX`, the id
returned by `lhash_new` is one at which no item is stored before the call. -/
theorem lhash_new_never_overwrites (QH_DUP : Nat) (stp st0 st : State) (item_len hd : Nat)
    (ops : List LhOp) (item : Bytes)
    (hinit : lhash_cinit QH_DUP stp item_len [] = some (hd, st0))
    (hrun : lhRun true hd ops st0 = some st) :
    lh_stored st hd (lhash_new st hd item).1 = false :=
  lhInv_fresh (lhInv_run hd ops st0 st (lhInv_created hinit) hrun) item

theorem lhash_new_never_overwrites_witness :
    ∃ st0 st,
      lhash_cinit 2 (table_state ⟨false, [], false⟩) 0 [] = some (0, st0) ∧
      lhRun true 0 [LhOp.new [65, 0], LhOp.put 3 [66, 0], LhOp.del 0, LhOp.new [67, 0]] st0
        = some st ∧
      lh_stored st 0 (lhash_new st 0 [68, 0]).1 = false :=
  ⟨_, _, rfl, rfl,
    lhash_new_never_overwrites 2 (table_state ⟨false, [], false⟩) _ _ 0 0
      [LhOp.new [65, 0], LhOp.put 3 [66, 0], LhOp.del 0, LhOp.new [67, 0]] [68, 0] rfl rfl⟩

end Qhash
namespace Qhash

/-! ### Flush and reopen with items that fit the four-byte scratch objects -/

theorem scan_spec (P : Nat → Prop) [DecidablePred P] (n : Nat) :
    ((List.range n).foldl (fun free i => if P i then idml_push free i else free) []).Nodup ∧
    ∀ i, i ∈ (List.range n).foldl (fun free i => if P i then idml_push free i else free) []
      ↔ (i < n ∧ P i) := by
  simp only [idml_push]
  induction n with
  | zero => simp
  | succ n ih =>
    obtain ⟨hnd, hmem⟩ := ih
    rw [List.range_succ, List.foldl_append]
    simp only [List.foldl_cons, List.foldl_nil]
    by_cases hp : P n
    · simp only [hp, if_true, List.nodup_cons, List.mem_cons]
      refine ⟨⟨fun hin => ?_, hnd⟩, fun i => ?_⟩
      · have := ((hmem n).mp hin).1
        omega
      · rw [hmem i]
        constructor
        · rintro (rfl | ⟨h1, h2⟩)
          · exact ⟨by omega, hp⟩
          · exact ⟨by omega, h2⟩
        · rintro ⟨h1, h2⟩
          by_cases hin : i = n
          · exact Or.inl hin
          · exact Or.inr ⟨by omega, h2⟩
    · simp only [hp, if_false]
      refine ⟨hnd, fun i => ?_⟩
      rw [hmem i]
      constructor
      · rintro ⟨h1, h2⟩
        exact ⟨by omega, h2⟩
      · rintro ⟨h1, h2⟩
        have hne : i ≠ n := fun h => hp (h ▸ h2)
        exact ⟨by omega, h2⟩

theorem mem_DB_replace_cases (key data : Bytes) (es : Entries) (e : Bytes × Bytes)
    (h : e ∈ DB_replace key data es) : e = (key, data) ∨ e ∈ es := by
  induction es with
  | nil =>
    simp only [DB_replace, List.mem_singleton] at h
    exact Or.inl h
  | cons x es ih =>
    by_cases hx : x.1 = key
    · simp only [DB_replace, hx, if_true, List.mem_cons] at h
      rcases h with h | h
      · exact Or.inl h
      · exact Or.inr (List.mem_cons_of_mem _ h)
    · simp only [DB_replace, hx, if_false, List.mem_cons] at h
      rcases h with h | h
      · exact Or.inr (by rw [h]; exact List.mem_cons_self _ _)
      · rcases ih h with h2 | h2
        · exact Or.inl h2
        · exact Or.inr (List.mem_cons_of_mem _ h2)

/-- The state after a `get` through handle `hd` that left the handle as `db`. -/
theorem hash_get_eq (st : State) (hd : Nat) (buf key : Bytes) :
    hash_get st hd buf key
      = match (st.hash_dbs hd).entries.find? (fun e => decide (e.1 = DBT_of key)) with
        | none =>
          some (1, buf, { hash_dbs := setAt st.hash_dbs hd (st.hash_dbs hd), meta := st.meta,
                          idm := st.idm, hash_first := st.hash_first })
        | some e =>
          if e.2 = [] ∧ (st.hash_dbs hd).rdata = false then
            some (1, buf,
              { hash_dbs := setAt st.hash_dbs hd
                  { dup := (st.hash_dbs hd).dup, entries := (st.hash_dbs hd).entries,
                    rdata := (st.hash_dbs hd).rdata || decide (e.2 ≠ []) },
                meta := st.meta, idm := st.idm, hash_first := st.hash_first })
          else if e.2.length ≤ buf.length then
            some (0, memcpy buf e.2 e.2.length,
              { hash_dbs := setAt st.hash_dbs hd
                  { dup := (st.hash_dbs hd).dup, entries := (st.hash_dbs hd).entries,
                    rdata := (st.hash_dbs hd).rdata || decide (e.2 ≠ []) },
                meta := st.meta, idm := st.idm, hash_first := st.hash_first })
          else none := by
  unfold hash_get _hash_get __hash_get DB_get
  cases hf : (st.hash_dbs hd).entries.find? (fun e => decide (e.1 = DBT_of key)) with
  | none => simp
  | some e =>
    by_cases hnull : e.2 = [] ∧ (st.hash_dbs hd).rdata = false
    · simp [hnull, DB_NOTFOUND]
    · by_cases hle : e.2.length ≤ buf.length
      · simp [hnull, hle, DB_NOTFOUND]
      · simp [hnull, hle, DB_NOTFOUND]

/-- A `hash_get` into a buffer that every stored datum fits returns, and changes nothing of
the table but, possibly, the return memory of the handle. -/
theorem hash_get_fits (st : State) (hd : Nat) (buf key : Bytes)
    (hfit : ∀ e ∈ (st.hash_dbs hd).entries, e.2.length ≤ buf.length) :
    ∃ r, hash_get st hd buf key = some r ∧
      (r.2.2.hash_dbs hd).entries = (st.hash_dbs hd).entries ∧
      (r.2.2.hash_dbs hd).dup = (st.hash_dbs hd).dup ∧
      r.2.2.meta = st.meta := by
  rw [hash_get_eq]
  cases hf : (st.hash_dbs hd).entries.find? (fun e => decide (e.1 = DBT_of key)) with
  | none => exact ⟨_, rfl, by simp [setAt_same], by simp [setAt_same], rfl⟩
  | some e =>
    have hle := hfit e (List.mem_of_find?_eq_some hf)
    by_cases hnull : e.2 = [] ∧ (st.hash_dbs hd).rdata = false
    · simp only [hnull, and_self, if_true]
      exact ⟨_, rfl, by simp [setAt_same], by simp [setAt_same], rfl⟩
    · simp only [hnull, if_false, hle, if_true]
      exact ⟨_, rfl, by simp [setAt_same], by simp [setAt_same], rfl⟩

/-- On a handle that has allocated its return memory, a `uhash_get` into a four-byte object
that every stored datum fits reports exactly whether an item is stored and leaves the state
as it is. -/
theorem uhash_get_allocated (st : State) (hd : Nat) (i : Nat)
    (hr : (st.hash_dbs hd).rdata = true)
    (hfit : ∀ e ∈ (st.hash_dbs hd).entries, e.2.length ≤ 4) :
    ∃ b, uhash_get st hd (unsigned_bytes 0) i
      = some (if lh_stored st hd i = true then 0 else 1, b, st) := by
  have hst : ({ hash_dbs := setAt st.hash_dbs hd (st.hash_dbs hd), meta := st.meta,
                idm := st.idm, hash_first := st.hash_first } : State) = st := by
    rw [setAt_self]
  unfold uhash_get lh_stored
  rw [hash_get_eq, DBT_of_unsigned]
  cases hf : (st.hash_dbs hd).entries.find? (fun e => decide (e.1 = unsigned_bytes i)) with
  | none =>
    have hany : (st.hash_dbs hd).entries.any (fun e => decide (e.1 = unsigned_bytes i)) = false := by
      rw [List.find?_eq_none] at hf
      simp only [List.any_eq_false]
      exact hf
    refine ⟨unsigned_bytes 0, ?_⟩
    simp only [hany, Bool.false_eq_true, if_false, hst]
  | some e =>
    have hmem : e ∈ (st.hash_dbs hd).entries := List.mem_of_find?_eq_some hf
    have hkey : e.1 = unsigned_bytes i := by
      have := List.find?_some hf
      simpa using this
    have hany : (st.hash_dbs hd).entries.any (fun e => decide (e.1 = unsigned_bytes i)) = true := by
      simp only [List.any_eq_true, decide_eq_true_eq]
      exact ⟨e, hmem, hkey⟩
    have hle : e.2.length ≤ (unsigned_bytes 0).length := hfit e hmem
    have hdb : ({ dup := (st.hash_dbs hd).dup, entries := (st.hash_dbs hd).entries,
                  rdata := (st.hash_dbs hd).rdata || decide (e.2 ≠ []) } : DB)
        = st.hash_dbs hd := by
      rw [hr]
      simp only [Bool.true_or]
      rw [← hr]
    refine ⟨memcpy (unsigned_bytes 0) e.2 e.2.length, ?_⟩
    simp only [hany, if_true, hr, Bool.true_eq_false, and_false, if_false, hle]
    rw [← hr, hdb, hst]

theorem lhash_cinit_scan_allocated (st : State) (hd : Nat)
    (hr : (st.hash_dbs hd).rdata = true)
    (hfit : ∀ e ∈ (st.hash_dbs hd).entries, e.2.length ≤ 4) (n : Nat) :
    lhash_cinit_scan st hd n
      = some ((List.range n).foldl
          (fun free i => if lh_stored st hd i = false then idml_push free i else free) [], st) := by
  unfold lhash_cinit_scan
  induction n with
  | zero => rfl
  | succ n ih =>
    rw [List.range_succ, List.foldl_append, List.foldl_append, ih]
    obtain ⟨b, hb⟩ := uhash_get_allocated st hd n hr hfit
    simp only [List.foldl_cons, List.foldl_nil, hb]
    cases hs : lh_stored st hd n with
    | false => simp
    | true => simp

theorem DB_del_dup (db : DB) (k : Bytes) : (DB_del db k).2.dup = db.dup := by
  unfold DB_del
  split <;> rfl

theorem DB_del_sub (db : DB) (k : Bytes) (e : Bytes × Bytes)
    (h : e ∈ (DB_del db k).2.entries) : e ∈ db.entries := by
  unfold DB_del at h
  split at h
  · exact (List.mem_filter.mp h).1
  · exact h

theorem uhash_del_db (st : State) (hd i : Nat) :
    (uhash_del st hd i).hash_dbs hd = (DB_del (st.hash_dbs hd) (unsigned_bytes i)).2 := by
  simp [uhash_del, hash_del, setAt_same]

theorem uhash_put_db (st : State) (hd i : Nat) (v : Bytes) (n : Nat) :
    (uhash_put st hd i v n).2.hash_dbs hd
      = (DB_put (st.hash_dbs hd) (unsigned_bytes i) (DBT_of (v.take n))).2 := by
  simp [uhash_put, hash_put, _hash_put, setAt_same, DBT_of_unsigned]

theorem uhash_put_meta (st : State) (hd i : Nat) (v : Bytes) (n : Nat) :
    (uhash_put st hd i v n).2.meta = st.meta := rfl

theorem uhash_del_meta (st : State) (hd i : Nat) : (uhash_del st hd i).meta = st.meta := rfl

theorem unsigned_bytes_length (n : Nat) : (unsigned_bytes n).length = 4 := rfl

theorem DBT_of_unsigned_take (n : Nat) :
    DBT_of ((unsigned_bytes n).take 4) = unsigned_bytes n := rfl

/-- What `lhash_flush` leaves in a table without duplicates whose stored data all fit four
bytes: slot `(unsigned) -1` holds `last`, every datum still fits four bytes, and the other
slots hold an item exactly when they did before. -/
theorem lhash_flush_small (st : State) (hd : Nat)
    (hdup : (st.hash_dbs hd).dup = false)
    (hsmall : ∀ e ∈ (st.hash_dbs hd).entries, e.2.length ≤ 4) :
    ∃ stf, lhash_flush st hd = some stf ∧
      (stf.hash_dbs hd).entries.find? (fun e => decide (e.1 = unsigned_bytes UINT_MAX))
        = some (unsigned_bytes UINT_MAX, unsigned_bytes (st.meta hd).idm.last) ∧
      (∀ e ∈ (stf.hash_dbs hd).entries, e.2.length ≤ 4) ∧
      (∀ i, i < UINT_MAX → lh_stored stf hd i = lh_stored st hd i) := by
  obtain ⟨r, hr, hes, hd2, _⟩ := hash_get_fits st hd (unsigned_bytes 0) (unsigned_bytes UINT_MAX)
    hsmall
  have hne : ∀ i, i < UINT_MAX → unsigned_bytes i ≠ unsigned_bytes UINT_MAX := by
    intro i hi h
    have := unsigned_bytes_inj (by unfold UINT_MAX at hi; omega) (by decide) h
    omega
  unfold lhash_flush uhash_get
  simp only [hr]
  refine ⟨_, rfl, ?_, ?_, ?_⟩
  · rw [uhash_put_db, DBT_of_unsigned_take]
    by_cases h0 : r.1 = 0
    · simp only [h0, if_true, DB_put, uhash_del_db, DB_del_dup, hd2, hdup, Bool.false_eq_true,
        if_false]
      exact find_DB_replace _ _ _
    · simp only [h0, if_false, DB_put, hd2, hdup, Bool.false_eq_true]
      exact find_DB_replace _ _ _
  · intro e he
    rw [uhash_put_db, DBT_of_unsigned_take] at he
    by_cases h0 : r.1 = 0
    · simp only [h0, if_true, DB_put, uhash_del_db, DB_del_dup, hd2, hdup, Bool.false_eq_true,
        if_false] at he
      rcases mem_DB_replace_cases _ _ _ _ he with h | h
      · subst h
        exact Nat.le_of_eq (unsigned_bytes_length _)
      · exact hsmall e (hes ▸ DB_del_sub _ _ _ h)
    · simp only [h0, if_false, DB_put, hd2, hdup, Bool.false_eq_true] at he
      rcases mem_DB_replace_cases _ _ _ _ he with h | h
      · subst h
        exact Nat.le_of_eq (unsigned_bytes_length _)
      · exact hsmall e (hes ▸ h)
  · intro i hi
    have hk := hne i hi
    unfold lh_stored
    rw [Bool.eq_iff_iff, uhash_put_db, stored_after_put]
    by_cases h0 : r.1 = 0
    · simp only [h0, if_true, uhash_del_db, stored_after_del, hes]
      constructor
      · rintro (h | h)
        · exact absurd h hk
        · exact h.2
      · intro h
        exact Or.inr ⟨hk, h⟩
    · simp only [h0, if_false, hes]
      constructor
      · rintro (h | h)
        · exact absurd h hk
        · exact h
      · intro h
        exact Or.inr h

/-- The reopen over a table whose slot `(unsigned) -1` holds `last` and whose data all fit
four bytes. -/
theorem lhash_cinit_small (QH_DUP : Nat) (st2 : State) (item_len : Nat) (F : Entries) (L : Nat)
    (hL : L < 4294967296)
    (hslot : F.find? (fun e => decide (e.1 = unsigned_bytes UINT_MAX))
      = some (unsigned_bytes UINT_MAX, unsigned_bytes L))
    (hfit : ∀ e ∈ F, e.2.length ≤ 4) :
    ∃ hd1 st3, lhash_cinit QH_DUP st2 item_len F = some (hd1, st3) ∧
      (st3.hash_dbs hd1).entries = F ∧
      (st3.meta hd1).len = item_len ∧
      (st3.meta hd1).idm.last = L ∧
      (st3.meta hd1).idm.free
        = (List.range L).foldl
            (fun free i => if lh_stored st3 hd1 i = false then idml_push free i else free) [] := by
  have hdb0 : (hash_cinit QH_DUP st2 F 0).2.hash_dbs (hash_cinit QH_DUP st2 F 0).1
      = { dup := false, entries := F, rdata := false } := by
    simp [hash_cinit, setAt_same]
  obtain ⟨c, hc⟩ : ∃ c, hash_cinit QH_DUP st2 F 0 = c := ⟨_, rfl⟩
  have hdb : c.2.hash_dbs c.1 = { dup := false, entries := F, rdata := false } := by
    rw [← hc]
    exact hdb0
  have hbytes : memcpy (unsigned_bytes 0) (unsigned_bytes L) (unsigned_bytes L).length
      = unsigned_bytes L := by
    simp [memcpy, unsigned_bytes]
  have hnonempty : unsigned_bytes L ≠ [] := by simp [unsigned_bytes]
  have hget : uhash_get c.2 c.1 (unsigned_bytes 0) UINT_MAX
      = some (0, unsigned_bytes L,
          { hash_dbs := setAt c.2.hash_dbs c.1 { dup := false, entries := F, rdata := true },
            meta := c.2.meta, idm := c.2.idm, hash_first := c.2.hash_first }) := by
    unfold uhash_get
    rw [hash_get_eq, DBT_of_unsigned, hdb]
    simp only [hslot, hnonempty, false_and, if_false, hbytes]
    have hle : (unsigned_bytes L).length ≤ (unsigned_bytes 0).length := Nat.le_refl 4
    simp [hle, hnonempty]
  have hscan := lhash_cinit_scan_allocated
    { hash_dbs := setAt c.2.hash_dbs c.1 { dup := false, entries := F, rdata := true },
      meta := c.2.meta, idm := c.2.idm, hash_first := c.2.hash_first } c.1
    (by simp [setAt_same]) (by simpa [setAt_same] using hfit) L
  refine ⟨c.1,
    { hash_dbs := setAt c.2.hash_dbs c.1 { dup := false, entries := F, rdata := true },
      meta := setAt c.2.meta c.1
        { len := item_len, flags := 0,
          idm := { free := (List.range L).foldl
                     (fun free i =>
                       if lh_stored
                           { hash_dbs := setAt c.2.hash_dbs c.1
                               { dup := false, entries := F, rdata := true },
                             meta := c.2.meta, idm := c.2.idm, hash_first := c.2.hash_first }
                           c.1 i = false
                       then idml_push free i else free) [],
                   last := L } },
      idm := c.2.idm, hash_first := c.2.hash_first }, ?_, ?_, ?_, ?_, ?_⟩
  · unfold lhash_cinit
    simp only [hc, hget, unsigned_roundtrip L hL, hscan]
  · simp [setAt_same]
  · simp [setAt_same]
  · simp [setAt_same]
  · simp only [setAt_same]
    rfl

/-- Apart from the copies into four-byte objects, flush and reopen do what C9 says: for a
list-hash table without duplicates in which every stored datum fits four bytes,
`lhash_flush` returns, the reopen through `lhash_cinit` over the stored contents returns,
the rebuilt `last` is the `last` at flush time, and the rebuilt free list holds, each exactly
once, exactly the ids below `last` at which no item is stored. -/
theorem lhash_flush_reopen_small_items (QH_DUP : Nat) (st st2 : State) (hd item_len : Nat)
    (hlast : (st.meta hd).idm.last < 4294967296)
    (hdup : (st.hash_dbs hd).dup = false)
    (hsmall : ∀ e ∈ (st.hash_dbs hd).entries, e.2.length ≤ 4) :
    ∃ stf hd1 st3,
      lhash_flush st hd = some stf ∧
      lhash_cinit QH_DUP st2 item_len (stf.hash_dbs hd).entries = some (hd1, st3) ∧
      (st3.hash_dbs hd1).entries = (stf.hash_dbs hd).entries ∧
      (st3.meta hd1).idm.last = (st.meta hd).idm.last ∧
      (st3.meta hd1).idm.free.Nodup ∧
      (∀ i, i ∈ (st3.meta hd1).idm.free
        ↔ (i < (st.meta hd).idm.last ∧ lh_stored st3 hd1 i = false)) ∧
      (∀ i, i < (st.meta hd).idm.last → lh_stored st3 hd1 i = lh_stored st hd i) := by
  obtain ⟨stf, hflush, hslot, hfit, hkeep⟩ := lhash_flush_small st hd hdup hsmall
  obtain ⟨hd1, st3, hinit, hes, _, hl, hfree⟩ :=
    lhash_cinit_small QH_DUP st2 item_len (stf.hash_dbs hd).entries (st.meta hd).idm.last hlast
      hslot hfit
  have hscan := scan_spec (fun i => lh_stored st3 hd1 i = false) (st.meta hd).idm.last
  refine ⟨stf, hd1, st3, hflush, hinit, hes, hl, ?_, ?_, ?_⟩
  · rw [hfree]
    exact hscan.1
  · intro i
    rw [hfree]
    exact hscan.2 i
  · intro i hi
    have hlt : i < UINT_MAX := by unfold UINT_MAX; omega
    rw [← hkeep i hlt]
    unfold lh_stored
    rw [hes]

end Qhash
